import Mathlib

/-!
# Verification of `ipbin.py`

A shallow embedding of the `ipbin` library: a geohash-style variable-precision
encoding of IPv4 addresses.  The Python module works on IEEE-754 doubles; the
bisection arithmetic is modelled here with exact rationals (`ℚ`), the idealised
arithmetic the algorithm is designed around.  Python strings are modelled as
`List Char`; functions that raise exceptions are modelled as `Option`-valued.
-/

namespace Ipbin

/-- The fixed 8-symbol alphabet, `__base32 = '01abcdef'` in the source. -/
def base32 : List Char := ['0', '1', 'a', 'b', 'c', 'd', 'e', 'f']

/-- The inverse lookup table `__decodemap`, built in the source by enumerating
`__base32`; `none` models the `KeyError` raised on a character outside the
alphabet. -/
def decodemap : Char → Option Nat
  | '0' => some 0
  | '1' => some 1
  | 'a' => some 2
  | 'b' => some 3
  | 'c' => some 4
  | 'd' => some 5
  | 'e' => some 6
  | 'f' => some 7
  | _ => none

/-- One iteration of the inner `for mask in [4, 2, 1]` loop of
`decode_exactly`: halve `ip_range`, compute the midpoint, and keep the upper or
lower half of the interval depending on the bit `char_decoded & mask`.  The
state is `(ip_interval, ip_range)`. -/
def decodeMaskStep (charDecoded : Nat) (st : (ℚ × ℚ) × ℚ) (mask : Nat) :
    (ℚ × ℚ) × ℚ :=
  let ipRange := st.2 / 2
  let mid := (st.1.1 + st.1.2) / 2
  if charDecoded &&& mask ≠ 0 then ((mid, st.1.2), ipRange)
  else ((st.1.1, mid), ipRange)

/-- The outer `for char in ipbin` loop of `decode_exactly`.  Looking up a
character that is not in `__decodemap` raises in Python; here it yields
`none`. -/
def decodeLoop : List Char → ((ℚ × ℚ) × ℚ) → Option ((ℚ × ℚ) × ℚ)
  | [], st => some st
  | c :: cs, st =>
    match decodemap c with
    | none => none
    | some d => decodeLoop cs (List.foldl (decodeMaskStep d) st [4, 2, 1])

/-- `decode_exactly(ipbin)`: start from the interval `(0.0, 4294967295.0)` and
the half-range `(0 + 4294967295) / 2`, consume the token, and return the final
interval midpoint together with the remaining half-range (the error margin). -/
def decode_exactly (ipbin : List Char) : Option (ℚ × ℚ) :=
  match decodeLoop ipbin ((0, 4294967295), (0 + 4294967295) / 2) with
  | none => none
  | some (iv, ipRange) => some ((iv.1 + iv.2) / 2, ipRange)

/-- `decode(ipbin)`: the value component of `decode_exactly`. -/
def decode (ipbin : List Char) : Option ℚ :=
  (decode_exactly ipbin).map Prod.fst

/-- One bit-decision of `encode`: compare the value with the interval midpoint;
if strictly above, set the current weight bit in the character accumulator and
keep the upper half, otherwise keep the lower half.  The state is
`(char, ip_interval)`. -/
def encodeBitStep (ipInteger : ℚ) (st : Nat × (ℚ × ℚ)) (w : Nat) :
    Nat × (ℚ × ℚ) :=
  let mid := (st.2.1 + st.2.2) / 2
  if ipInteger > mid then (st.1 ||| w, (mid, st.2.2))
  else (st.1, (st.2.1, mid))

/-- Three consecutive bit-decisions of `encode` with the bit weights
`bits = [4, 2, 1]`, producing one character index and the narrowed interval;
this is one full pass of the `while` loop between two characters being
appended. -/
def encodeCharStep (ipInteger : ℚ) (iv : ℚ × ℚ) : Nat × (ℚ × ℚ) :=
  List.foldl (encodeBitStep ipInteger) (0, iv) [4, 2, 1]

/-- The `while len(ipbin) < precision` loop of `encode`, emitting one alphabet
character per three bit-decisions. -/
def encodeLoop (ipInteger : ℚ) : Nat → (ℚ × ℚ) → List Char
  | 0, _ => []
  | n + 1, iv =>
    let s := encodeCharStep ipInteger iv
    base32.getD s.1 '0' :: encodeLoop ipInteger n s.2

/-- `encode(ip_integer, precision)`: clamp the precision with
`min(precision, 10)` and run the bisection loop from `(0.0, 4294967295.0)`.
A non-positive precision makes the `while` loop produce nothing, so the
character count is `(min precision 10).toNat`. -/
def encode (ipInteger : ℚ) (precision : ℤ) : List Char :=
  encodeLoop ipInteger (min precision 10).toNat (0, 4294967295)

/-! ## Address ⇄ integer conversion

`iptoint` delegates to `socket.inet_aton`, a thin wrapper around the POSIX
`inet_aton` numbers-and-dots parser, and `inttoip` to `socket.inet_ntoa`.
These platform functions are modelled here from their documented behavior:
1 to 4 numeric parts separated by dots, each part in decimal, octal (leading
`0`) or hexadecimal (leading `0x`/`0X`) notation, with the trailing part
covering the remaining bytes of the 32-bit value; `inet_ntoa` prints the four
bytes in canonical decimal.  (`inet_aton`'s tolerance of trailing whitespace
is not modelled; no claim exercises it.) -/

/-- The numeric value of `c` as a digit in base `base` (≤ 16), or `none`. -/
def digitVal (base : Nat) (c : Char) : Option Nat :=
  let v :=
    if '0' ≤ c ∧ c ≤ '9' then some (c.toNat - '0'.toNat)
    else if 'a' ≤ c ∧ c ≤ 'f' then some (c.toNat - 'a'.toNat + 10)
    else if 'A' ≤ c ∧ c ≤ 'F' then some (c.toNat - 'A'.toNat + 10)
    else none
  match v with
  | some d => if d < base then some d else none
  | none => none

/-- Accumulating digit parser: `strtoul`'s digit loop. -/
def digitsValAux (base : Nat) (acc : Nat) : List Char → Option Nat
  | [] => some acc
  | c :: cs =>
    match digitVal base c with
    | none => none
    | some d => digitsValAux base (acc * base + d) cs

/-- Parse a nonempty all-digits string in base `base`. -/
def digitsVal (base : Nat) : List Char → Option Nat
  | [] => none
  | c :: cs => digitsValAux base 0 (c :: cs)

/-- Parse one dot-separated part the way `inet_aton` (via `strtoul` with base
0) does: `0x`/`0X` means hexadecimal, a leading `0` means octal, otherwise
decimal; the whole part must be consumed. -/
def parsePart : List Char → Option Nat
  | [] => none
  | '0' :: 'x' :: rest => digitsVal 16 rest
  | '0' :: 'X' :: rest => digitsVal 16 rest
  | '0' :: rest => digitsValAux 8 0 ('0' :: rest)
  | part => digitsVal 10 part

/-- Split on the `.` separator (Python's `str.split('.')` / `inet_aton`'s
dot handling). -/
def splitOnDot (s : List Char) : List (List Char) :=
  s.splitOn '.'

/-- Parse every part, failing if any part fails. -/
def parseParts : List (List Char) → Option (List Nat)
  | [] => some []
  | p :: ps =>
    match parsePart p, parseParts ps with
    | some v, some vs => some (v :: vs)
    | _, _ => none

/-- `iptoint(ip_v4)`: `int(socket.inet_aton(ip_v4).hex(), 16)` — the 32-bit
integer denoted by a numbers-and-dots string, with `inet_aton`'s per-form
range checks; `none` models the `OSError` raised on malformed input. -/
def iptoint (ipV4 : List Char) : Option Nat :=
  match parseParts (splitOnDot ipV4) with
  | some [a] => if a ≤ 4294967295 then some a else none
  | some [a, b] =>
    if a ≤ 255 ∧ b ≤ 16777215 then some (a * 16777216 + b) else none
  | some [a, b, c] =>
    if a ≤ 255 ∧ b ≤ 255 ∧ c ≤ 65535 then
      some (a * 16777216 + b * 65536 + c)
    else none
  | some [a, b, c, d] =>
    if a ≤ 255 ∧ b ≤ 255 ∧ c ≤ 255 ∧ d ≤ 255 then
      some (a * 16777216 + b * 65536 + c * 256 + d)
    else none
  | _ => none

/-- Canonical decimal rendering of one byte (`inet_ntoa`'s `%d`; only values
below 256 are ever printed). -/
def toDec (n : Nat) : List Char :=
  if n < 10 then [Nat.digitChar n]
  else if n < 100 then [Nat.digitChar (n / 10), Nat.digitChar (n % 10)]
  else [Nat.digitChar (n / 100), Nat.digitChar (n / 10 % 10),
    Nat.digitChar (n % 10)]

/-- The dotted quad `a.b.c.d` as a character list. -/
def quadStr (a b c d : Nat) : List Char :=
  List.intercalate ['.'] [toDec a, toDec b, toDec c, toDec d]

/-- `inttoip(ip_int)`: render the 8-digit hexadecimal form of `ip_int`, decode
it to 4 bytes and print them with `inet_ntoa`.  An integer outside
`[0, 2^32 - 1]` does not yield 4 bytes and raises, modelled as `none`. -/
def inttoip (ipInt : Nat) : Option (List Char) :=
  if ipInt < 4294967296 then
    some (quadStr (ipInt / 16777216) (ipInt / 65536 % 256) (ipInt / 256 % 256)
      (ipInt % 256))
  else none

/-! ## Helper lemmas about the codec -/

lemma encodeLoop_length (v : ℚ) (n : Nat) (iv : ℚ × ℚ) :
    (encodeLoop v n iv).length = n := by
  induction n generalizing iv with
  | zero => rfl
  | succ n ih => simp [encodeLoop, ih]

lemma encodeLoop_take (v : ℚ) {n m : Nat} (h : n ≤ m) (iv : ℚ × ℚ) :
    encodeLoop v n iv = (encodeLoop v m iv).take n := by
  induction n generalizing m iv with
  | zero => simp [encodeLoop]
  | succ n ih =>
    match m, h with
    | m + 1, h =>
      simp only [encodeLoop, List.take_succ_cons]
      exact congrArg _ (ih (Nat.succ_le_succ_iff.mp h) _)

lemma encodeBitStep_pos (v : ℚ) (c : Nat) (lo hi : ℚ) (w : Nat)
    (h : v > (lo + hi) / 2) :
    encodeBitStep v (c, (lo, hi)) w = (c ||| w, ((lo + hi) / 2, hi)) := by
  unfold encodeBitStep
  dsimp only
  rw [if_pos h]

lemma encodeBitStep_neg (v : ℚ) (c : Nat) (lo hi : ℚ) (w : Nat)
    (h : ¬ v > (lo + hi) / 2) :
    encodeBitStep v (c, (lo, hi)) w = (c, (lo, (lo + hi) / 2)) := by
  unfold encodeBitStep
  dsimp only
  rw [if_neg h]

lemma decodeMaskStep_eq (d : Nat) (lo hi r : ℚ) (m : Nat) :
    decodeMaskStep d ((lo, hi), r) m
      = if d &&& m ≠ 0 then (((lo + hi) / 2, hi), r / 2)
        else ((lo, (lo + hi) / 2), r / 2) := rfl

lemma encodeCharStep_eq (v : ℚ) (iv : ℚ × ℚ) :
    encodeCharStep v iv
      = encodeBitStep v (encodeBitStep v (encodeBitStep v (0, iv) 4) 2) 1 :=
  rfl

/-- Decoding the character produced by one `encodeCharStep` replays exactly
the same three interval bisections and halves the range three times. -/
lemma char_sim (v : ℚ) (lo hi r : ℚ) :
    List.foldl (decodeMaskStep (encodeCharStep v (lo, hi)).1) ((lo, hi), r)
        [4, 2, 1]
      = ((encodeCharStep v (lo, hi)).2, r / 8) := by
  rw [encodeCharStep_eq]
  by_cases h1 : v > (lo + hi) / 2
  · rw [encodeBitStep_pos v 0 lo hi 4 h1]
    by_cases h2 : v > ((lo + hi) / 2 + hi) / 2
    · rw [encodeBitStep_pos v _ _ _ 2 h2]
      by_cases h3 : v > (((lo + hi) / 2 + hi) / 2 + hi) / 2
      · rw [encodeBitStep_pos v _ _ _ 1 h3]
        simp [List.foldl, decodeMaskStep_eq, (by decide : (7:Nat) &&& 4 = 4), (by decide : (7:Nat) &&& 2 = 2), (by decide : (7:Nat) &&& 1 = 1)]
        ring_nf
      · rw [encodeBitStep_neg v _ _ _ 1 h3]
        simp [List.foldl, decodeMaskStep_eq, (by decide : (6:Nat) &&& 4 = 4), (by decide : (6:Nat) &&& 2 = 2), (by decide : (6:Nat) &&& 1 = 0)]
        ring_nf
    · rw [encodeBitStep_neg v _ _ _ 2 h2]
      by_cases h3 : v > ((lo + hi) / 2 + ((lo + hi) / 2 + hi) / 2) / 2
      · rw [encodeBitStep_pos v _ _ _ 1 h3]
        simp [List.foldl, decodeMaskStep_eq, (by decide : (5:Nat) &&& 4 = 4), (by decide : (5:Nat) &&& 2 = 0), (by decide : (5:Nat) &&& 1 = 1)]
        ring_nf
      · rw [encodeBitStep_neg v _ _ _ 1 h3]
        simp [List.foldl, decodeMaskStep_eq, (by decide : (4:Nat) &&& 4 = 4), (by decide : (4:Nat) &&& 2 = 0), (by decide : (4:Nat) &&& 1 = 0)]
        ring_nf
  · rw [encodeBitStep_neg v 0 lo hi 4 h1]
    by_cases h2 : v > (lo + (lo + hi) / 2) / 2
    · rw [encodeBitStep_pos v _ _ _ 2 h2]
      by_cases h3 : v > ((lo + (lo + hi) / 2) / 2 + (lo + hi) / 2) / 2
      · rw [encodeBitStep_pos v _ _ _ 1 h3]
        simp [List.foldl, decodeMaskStep_eq, (by decide : (3:Nat) &&& 4 = 0), (by decide : (3:Nat) &&& 2 = 2), (by decide : (3:Nat) &&& 1 = 1)]
        ring_nf
      · rw [encodeBitStep_neg v _ _ _ 1 h3]
        simp [List.foldl, decodeMaskStep_eq, (by decide : (2:Nat) &&& 4 = 0), (by decide : (2:Nat) &&& 2 = 2), (by decide : (2:Nat) &&& 1 = 0)]
        ring_nf
    · rw [encodeBitStep_neg v _ _ _ 2 h2]
      by_cases h3 : v > (lo + (lo + (lo + hi) / 2) / 2) / 2
      · rw [encodeBitStep_pos v _ _ _ 1 h3]
        simp [List.foldl, decodeMaskStep_eq, (by decide : (1:Nat) &&& 4 = 0), (by decide : (1:Nat) &&& 2 = 0), (by decide : (1:Nat) &&& 1 = 1)]
        ring_nf
      · rw [encodeBitStep_neg v _ _ _ 1 h3]
        simp [List.foldl, decodeMaskStep_eq, (by decide : (0:Nat) &&& 4 = 0), (by decide : (0:Nat) &&& 2 = 0), (by decide : (0:Nat) &&& 1 = 0)]
        ring_nf

/-- The interval reached by `encode` after emitting `n` characters. -/
def encodeIv (v : ℚ) : Nat → (ℚ × ℚ) → ℚ × ℚ
  | 0, iv => iv
  | n + 1, iv => encodeIv v n (encodeCharStep v iv).2

lemma decodemap_getD : ∀ c < 8, decodemap (base32.getD c '0') = some c := by
  decide

lemma encodeBitStep_fst_lt (v : ℚ) (st : Nat × (ℚ × ℚ)) (w : Nat)
    (hs : st.1 < 8) (hw : w < 8) : (encodeBitStep v st w).1 < 8 := by
  unfold encodeBitStep
  dsimp only
  split_ifs <;> dsimp
  · have : st.1 ||| w < 2 ^ 3 := Nat.or_lt_two_pow hs hw
    simpa using this
  · exact hs

lemma encodeCharStep_fst_lt (v : ℚ) (iv : ℚ × ℚ) :
    (encodeCharStep v iv).1 < 8 := by
  rw [encodeCharStep_eq]
  exact encodeBitStep_fst_lt v _ 1
    (encodeBitStep_fst_lt v _ 2
      (encodeBitStep_fst_lt v _ 4 (by norm_num) (by norm_num)) (by norm_num))
    (by norm_num)

lemma encodeBitStep_width (v : ℚ) (st : Nat × (ℚ × ℚ)) (w : Nat) :
    (encodeBitStep v st w).2.2 - (encodeBitStep v st w).2.1
      = (st.2.2 - st.2.1) / 2 := by
  unfold encodeBitStep
  dsimp only
  split_ifs <;> dsimp <;> ring

lemma encodeBitStep_mem (v : ℚ) (st : Nat × (ℚ × ℚ)) (w : Nat)
    (h1 : st.2.1 ≤ v) (h2 : v ≤ st.2.2) :
    (encodeBitStep v st w).2.1 ≤ v ∧ v ≤ (encodeBitStep v st w).2.2 := by
  unfold encodeBitStep
  dsimp only
  split_ifs with h <;> dsimp <;> constructor <;> linarith

lemma encodeCharStep_width (v : ℚ) (iv : ℚ × ℚ) :
    (encodeCharStep v iv).2.2 - (encodeCharStep v iv).2.1
      = (iv.2 - iv.1) / 8 := by
  rw [encodeCharStep_eq, encodeBitStep_width, encodeBitStep_width,
    encodeBitStep_width]
  ring

lemma encodeCharStep_mem (v : ℚ) (iv : ℚ × ℚ) (h1 : iv.1 ≤ v)
    (h2 : v ≤ iv.2) :
    (encodeCharStep v iv).2.1 ≤ v ∧ v ≤ (encodeCharStep v iv).2.2 := by
  rw [encodeCharStep_eq]
  have a := encodeBitStep_mem v (0, iv) 4 h1 h2
  have b := encodeBitStep_mem v _ 2 a.1 a.2
  exact encodeBitStep_mem v _ 1 b.1 b.2

/-- Decoding an encoded token replays the encoder's interval narrowing and
divides the running range by `8` per character. -/
lemma loop_sim (v : ℚ) (n : Nat) (iv : ℚ × ℚ) (r : ℚ) :
    decodeLoop (encodeLoop v n iv) (iv, r)
      = some (encodeIv v n iv, r / 8 ^ n) := by
  induction n generalizing iv r with
  | zero => simp [decodeLoop, encodeLoop, encodeIv]
  | succ n ih =>
    obtain ⟨lo, hi⟩ := iv
    simp only [encodeLoop, decodeLoop,
      decodemap_getD _ (encodeCharStep_fst_lt v (lo, hi))]
    rw [char_sim, ih]
    simp only [encodeIv]
    rw [div_div, ← pow_succ']

lemma encodeIv_width (v : ℚ) (n : Nat) (iv : ℚ × ℚ) :
    (encodeIv v n iv).2 - (encodeIv v n iv).1 = (iv.2 - iv.1) / 8 ^ n := by
  induction n generalizing iv with
  | zero => simp [encodeIv]
  | succ n ih =>
    simp only [encodeIv]
    rw [ih, encodeCharStep_width, div_div, ← pow_succ']

lemma encodeIv_mem (v : ℚ) (n : Nat) (iv : ℚ × ℚ) (h1 : iv.1 ≤ v)
    (h2 : v ≤ iv.2) :
    (encodeIv v n iv).1 ≤ v ∧ v ≤ (encodeIv v n iv).2 := by
  induction n generalizing iv with
  | zero => exact ⟨h1, h2⟩
  | succ n ih =>
    simp only [encodeIv]
    have a := encodeCharStep_mem v iv h1 h2
    exact ih _ a.1 a.2

/-- Evaluation of `decode_exactly` on an encoder-produced token. -/
lemma decode_exactly_encodeLoop (x : ℚ) (n : Nat) :
    decode_exactly (encodeLoop x n (0, 4294967295))
      = some (((encodeIv x n (0, 4294967295)).1
            + (encodeIv x n (0, 4294967295)).2) / 2,
          4294967295 / 2 / 8 ^ n) := by
  unfold decode_exactly
  rw [loop_sim]
  norm_num

/-- The decoded midpoint deviates from the encoded value by at most the
final half-range. -/
lemma midpoint_bound (x : ℚ) (h0 : 0 ≤ x) (hM : x ≤ 4294967295) (n : Nat) :
    |((encodeIv x n (0, 4294967295)).1
        + (encodeIv x n (0, 4294967295)).2) / 2 - x|
      ≤ 4294967295 / 2 / 8 ^ n := by
  obtain ⟨hlo, hhi⟩ := encodeIv_mem x n (0, 4294967295) h0 hM
  have hw := encodeIv_width x n (0, 4294967295)
  have key : (4294967295 : ℚ) / 2 / 8 ^ n
      = (((0, (4294967295 : ℚ)).2 - (0, (4294967295 : ℚ)).1) / 8 ^ n) / 2 := by
    norm_num
    ring
  rw [abs_le]
  constructor <;> linarith

lemma encode_eq_encodeLoop (v : ℚ) (p : ℤ) (h2 : p ≤ 10) :
    encode v p = encodeLoop v p.toNat (0, 4294967295) := by
  unfold encode
  rw [min_eq_left h2]

/-- C1: for every integer `x` in `[0, 4294967295]` and every precision `p` in
`[1, 10]`, `decode_exactly (encode x p)` returns a pair `(value, margin)` with
`|value - x| ≤ margin` (exact-rational model of the float arithmetic). -/
theorem C1_decode_encode_within_margin (x : ℕ) (hx : x ≤ 4294967295)
    (p : ℤ) (hp1 : 1 ≤ p) (hp2 : p ≤ 10) :
    ∃ value margin : ℚ, decode_exactly (encode x p) = some (value, margin)
      ∧ |value - x| ≤ margin := by
  rw [encode_eq_encodeLoop _ _ hp2]
  exact ⟨_, _, decode_exactly_encodeLoop x p.toNat,
    midpoint_bound x (by positivity) (by exact_mod_cast hx) p.toNat⟩

theorem C1_witness :
    (3 : ℕ) ≤ 4294967295 ∧ (1 : ℤ) ≤ 2 ∧ (2 : ℤ) ≤ 10
      ∧ ∃ value margin : ℚ,
        decode_exactly (encode ((3 : ℕ) : ℚ) 2) = some (value, margin)
          ∧ |value - ((3 : ℕ) : ℚ)| ≤ margin :=
  ⟨by norm_num, by norm_num, by norm_num,
    C1_decode_encode_within_margin 3 (by norm_num) 2 (by norm_num)
      (by norm_num)⟩

/-- C2: for `1 ≤ p1 < p2 ≤ 10`, `encode x p1` is the first `p1` characters of
`encode x p2`: truncating a token yields the coarser-precision token. -/
theorem C2_tokens_form_hierarchy (x : ℕ) (hx : x ≤ 4294967295) (p1 p2 : ℤ)
    (h1 : 1 ≤ p1) (h12 : p1 < p2) (h2 : p2 ≤ 10) :
    encode x p1 = (encode x p2).take p1.toNat := by
  rw [encode_eq_encodeLoop _ _ (le_of_lt (lt_of_lt_of_le h12 h2)),
    encode_eq_encodeLoop _ _ h2]
  exact encodeLoop_take _ (Int.toNat_le_toNat (le_of_lt h12)) _

theorem C2_witness :
    encode ((99 : ℕ) : ℚ) 3 = (encode ((99 : ℕ) : ℚ) 7).take (3 : ℤ).toNat :=
  C2_tokens_form_hierarchy 99 (by norm_num) 3 7 (by norm_num) (by norm_num)
    (by norm_num)

/-- C3: the margin of `decode_exactly (encode x p)` equals
`2147483647.5 / 8 ^ p` (that is, `4294967295 / 2 / 8 ^ p`), and it strictly
decreases by a factor of `8` when `p` increases by `1` within `[1, 10]`. -/
theorem C3_margin_halves_thrice_per_character (x : ℕ) (hx : x ≤ 4294967295)
    (p : ℤ) (hp1 : 1 ≤ p) (hp2 : p ≤ 10) :
    (∃ value : ℚ, decode_exactly (encode x p)
        = some (value, 4294967295 / 2 / 8 ^ p.toNat))
    ∧ (p < 10 → ∃ value' : ℚ, decode_exactly (encode x (p + 1))
        = some (value', 4294967295 / 2 / 8 ^ p.toNat / 8)
        ∧ 4294967295 / 2 / 8 ^ p.toNat / 8
            < (4294967295 : ℚ) / 2 / 8 ^ p.toNat) := by
  constructor
  · rw [encode_eq_encodeLoop _ _ hp2]
    exact ⟨_, decode_exactly_encodeLoop x p.toNat⟩
  · intro hlt
    rw [encode_eq_encodeLoop _ _ (by omega : p + 1 ≤ 10)]
    have hn : (p + 1).toNat = p.toNat + 1 := by omega
    have hm : (4294967295 : ℚ) / 2 / 8 ^ p.toNat / 8
        = 4294967295 / 2 / 8 ^ (p.toNat + 1) := by
      rw [div_div, pow_succ]
    refine ⟨((encodeIv (x : ℚ) (p.toNat + 1) (0, 4294967295)).1
        + (encodeIv (x : ℚ) (p.toNat + 1) (0, 4294967295)).2) / 2, ?_, ?_⟩
    · rw [hn, hm]
      exact decode_exactly_encodeLoop x (p.toNat + 1)
    · have hpos : (0 : ℚ) < 4294967295 / 2 / 8 ^ p.toNat := by positivity
      linarith

theorem C3_witness :
    (∃ value : ℚ, decode_exactly (encode ((7 : ℕ) : ℚ) 4)
        = some (value, 4294967295 / 2 / 8 ^ (4 : ℤ).toNat))
    ∧ ((4 : ℤ) < 10 → ∃ value' : ℚ, decode_exactly (encode ((7 : ℕ) : ℚ) 5)
        = some (value', 4294967295 / 2 / 8 ^ (4 : ℤ).toNat / 8)
        ∧ 4294967295 / 2 / 8 ^ (4 : ℤ).toNat / 8
            < (4294967295 : ℚ) / 2 / 8 ^ (4 : ℤ).toNat) :=
  C3_margin_halves_thrice_per_character 7 (by norm_num) 4 (by norm_num)
    (by norm_num)

/-- C4: `encode` silently clamps precision: any `p > 10` behaves like
`p = 10` (a 10-character token), any `p ≤ 0` behaves like `p = 0` (the empty
token); being a total function, no error is raised. -/
theorem C4_precision_clamped (v : ℚ) (p : ℤ) :
    (10 < p → encode v p = encode v 10 ∧ (encode v p).length = 10)
    ∧ (p ≤ 0 → encode v p = encode v 0 ∧ encode v p = []) := by
  constructor
  · intro h
    have hmin : min p 10 = 10 := min_eq_right (le_of_lt h)
    unfold encode
    rw [hmin, min_self]
    exact ⟨rfl, by simp [encodeLoop_length]⟩
  · intro h
    have hmin : (min p 10).toNat = 0 := by omega
    have hmin0 : (min (0 : ℤ) 10).toNat = 0 := by omega
    unfold encode
    rw [hmin, hmin0]
    exact ⟨rfl, rfl⟩

theorem C4_witness :
    encode (5 : ℚ) 11 = encode (5 : ℚ) 10 ∧ encode (5 : ℚ) (-3) = [] :=
  ⟨((C4_precision_clamped 5 11).1 (by norm_num)).1,
    ((C4_precision_clamped 5 (-3)).2 (by norm_num)).2⟩

/-- C6: at full precision `p = 10`, the decoded value differs from the encoded
integer by at most `2` (the margin is `4294967295 / 2 ^ 31 < 2`). -/
theorem C6_full_precision_within_two (x : ℕ) (hx : x ≤ 4294967295) :
    ∃ v : ℚ, decode (encode x 10) = some v ∧ |v - x| ≤ 2 := by
  rw [encode_eq_encodeLoop _ _ le_rfl]
  unfold decode
  rw [decode_exactly_encodeLoop]
  refine ⟨_, rfl, ?_⟩
  have hb := midpoint_bound x (by positivity) (by exact_mod_cast hx)
    (10 : ℤ).toNat
  refine le_trans hb ?_
  show (4294967295 : ℚ) / 2 / 8 ^ (10 : ℕ) ≤ 2
  norm_num

theorem C6_witness :
    ∃ v : ℚ, decode (encode ((1113628805 : ℕ) : ℚ) 10) = some v
      ∧ |v - ((1113628805 : ℕ) : ℚ)| ≤ 2 :=
  C6_full_precision_within_two 1113628805 (by norm_num)

lemma decodemap_none_of_not_mem (c : Char) (h : c ∉ base32) :
    decodemap c = none := by
  cases hd : decodemap c with
  | none => rfl
  | some d =>
    exfalso
    apply h
    unfold decodemap at hd
    split at hd <;> first | decide | cases hd

lemma decodeLoop_invalid (t : List Char) (c : Char) (hc : c ∈ t)
    (hnone : decodemap c = none) : ∀ st, decodeLoop t st = none := by
  induction t with
  | nil => cases hc
  | cons a as ih =>
    intro st
    cases ha : decodemap a with
    | none => simp [decodeLoop, ha]
    | some d =>
      rcases List.mem_cons.mp hc with rfl | hmem
      · rw [hnone] at ha
        cases ha
      · simp only [decodeLoop, ha]
        exact ih hmem _

/-- C9: `decode_exactly` and `decode` fail (a `KeyError` in Python, `none`
here) on any token containing a character outside `{0,1,a,b,c,d,e,f}`. -/
theorem C9_unknown_character_rejected (t : List Char)
    (h : ∃ c ∈ t, c ∉ base32) :
    decode_exactly t = none ∧ decode t = none := by
  obtain ⟨c, hct, hcb⟩ := h
  have hnone :
      decodeLoop t ((0, 4294967295), (0 + 4294967295) / 2) = none :=
    decodeLoop_invalid t c hct (decodemap_none_of_not_mem c hcb) _
  constructor
  · unfold decode_exactly
    rw [hnone]
  · unfold decode decode_exactly
    rw [hnone]
    rfl

theorem C9_witness :
    decode_exactly ['0', 'z', 'f'] = none ∧ decode ['0', 'z', 'f'] = none :=
  C9_unknown_character_rejected ['0', 'z', 'f'] ⟨'z', by decide, by decide⟩

lemma decodeMaskStep_snd (d : Nat) (st : (ℚ × ℚ) × ℚ) (m : Nat) :
    (decodeMaskStep d st m).2 = st.2 / 2 := by
  unfold decodeMaskStep
  dsimp only
  split_ifs <;> rfl

lemma foldl_masks_snd (d : Nat) (st : (ℚ × ℚ) × ℚ) :
    (List.foldl (decodeMaskStep d) st [4, 2, 1]).2 = st.2 / 8 := by
  show (decodeMaskStep d (decodeMaskStep d (decodeMaskStep d st 4) 2) 1).2
    = st.2 / 8
  rw [decodeMaskStep_snd, decodeMaskStep_snd, decodeMaskStep_snd]
  ring

/-- On a token of valid characters, `decodeLoop` always succeeds and its
final range is the initial range divided by `8 ^ length`, independent of which
characters appear. -/
lemma decodeLoop_valid_range (t : List Char) (h : ∀ c ∈ t, c ∈ base32) :
    ∀ iv : ℚ × ℚ, ∀ r : ℚ,
      ∃ iv', decodeLoop t (iv, r) = some (iv', r / 8 ^ t.length) := by
  induction t with
  | nil =>
    intro iv r
    refine ⟨iv, ?_⟩
    simp [decodeLoop]
  | cons a as ih =>
    intro iv r
    have ha : a ∈ base32 := h a (List.mem_cons_self a as)
    obtain ⟨d, hd⟩ : ∃ d, decodemap a = some d := by
      fin_cases ha <;> exact ⟨_, rfl⟩
    have hst : List.foldl (decodeMaskStep d) ((iv, r)) [4, 2, 1]
        = ((List.foldl (decodeMaskStep d) ((iv, r)) [4, 2, 1]).1, r / 8) := by
      rw [← foldl_masks_snd d ((iv, r))]
    obtain ⟨iv2, h2⟩ := ih (fun c hc => h c (List.mem_cons_of_mem _ hc))
      (List.foldl (decodeMaskStep d) ((iv, r)) [4, 2, 1]).1 (r / 8)
    refine ⟨iv2, ?_⟩
    simp only [decodeLoop, hd]
    rw [hst, h2, List.length_cons, div_div, ← pow_succ']

/-- C10: for any token over the alphabet, the margin returned by
`decode_exactly` is `4294967295 / 2 / 8 ^ length` — a function of the token's
length only (for the empty token: `2147483647.5`). -/
theorem C10_margin_depends_only_on_length (t : List Char)
    (h : ∀ c ∈ t, c ∈ base32) :
    ∃ v : ℚ, decode_exactly t = some (v, 4294967295 / 2 / 8 ^ t.length) := by
  obtain ⟨iv', hloop⟩ :=
    decodeLoop_valid_range t h (0, 4294967295) ((0 + 4294967295) / 2)
  unfold decode_exactly
  rw [hloop]
  refine ⟨(iv'.1 + iv'.2) / 2, ?_⟩
  norm_num

theorem C10_witness :
    ∃ v : ℚ, decode_exactly ([] : List Char)
      = some (v, 4294967295 / 2 / 8 ^ ([] : List Char).length) :=
  C10_margin_depends_only_on_length [] (by simp)

/-! ## Helper lemmas about the address conversions -/

set_option maxRecDepth 10000

lemma parsePart_toDec : ∀ a, a < 256 → parsePart (toDec a) = some a := by
  decide

lemma dot_not_mem_toDec : ∀ a, a < 256 → '.' ∉ toDec a := by
  decide

lemma splitOnDot_quadStr (a b c d : Nat) (ha : a < 256) (hb : b < 256)
    (hc : c < 256) (hd : d < 256) :
    splitOnDot (quadStr a b c d) = [toDec a, toDec b, toDec c, toDec d] := by
  unfold splitOnDot quadStr
  apply List.splitOn_intercalate
  · intro l hl
    simp only [List.mem_cons, List.not_mem_nil, or_false] at hl
    rcases hl with rfl | rfl | rfl | rfl
    · exact dot_not_mem_toDec a ha
    · exact dot_not_mem_toDec b hb
    · exact dot_not_mem_toDec c hc
    · exact dot_not_mem_toDec d hd
  · simp

lemma parseParts_quad (a b c d : Nat) (ha : a < 256) (hb : b < 256)
    (hc : c < 256) (hd : d < 256) :
    parseParts [toDec a, toDec b, toDec c, toDec d] = some [a, b, c, d] := by
  simp only [parseParts, parsePart_toDec a ha, parsePart_toDec b hb,
    parsePart_toDec c hc, parsePart_toDec d hd]

lemma iptoint_quadStr (a b c d : Nat) (ha : a < 256) (hb : b < 256)
    (hc : c < 256) (hd : d < 256) :
    iptoint (quadStr a b c d)
      = some (a * 16777216 + b * 65536 + c * 256 + d) := by
  unfold iptoint
  rw [splitOnDot_quadStr a b c d ha hb hc hd,
    parseParts_quad a b c d ha hb hc hd]
  exact if_pos ⟨by omega, by omega, by omega, by omega⟩

lemma inttoip_bytes (a b c d : Nat) (ha : a < 256) (hb : b < 256)
    (hc : c < 256) (hd : d < 256) :
    inttoip (a * 16777216 + b * 65536 + c * 256 + d)
      = some (quadStr a b c d) := by
  unfold inttoip
  rw [if_pos (by omega : a * 16777216 + b * 65536 + c * 256 + d < 4294967296)]
  have e1 : (a * 16777216 + b * 65536 + c * 256 + d) / 16777216 = a := by omega
  have e2 : (a * 16777216 + b * 65536 + c * 256 + d) / 65536 % 256 = b := by
    omega
  have e3 : (a * 16777216 + b * 65536 + c * 256 + d) / 256 % 256 = c := by
    omega
  have e4 : (a * 16777216 + b * 65536 + c * 256 + d) % 256 = d := by omega
  rw [e1, e2, e3, e4]

/-- C8: round trips between canonical dotted quads and 32-bit integers, in
both directions. -/
theorem C8_address_integer_roundtrip (a b c d : Nat) (ha : a < 256)
    (hb : b < 256) (hc : c < 256) (hd : d < 256) (n : Nat)
    (hn : n ≤ 4294967295) :
    (iptoint (quadStr a b c d)
        = some (a * 16777216 + b * 65536 + c * 256 + d)
      ∧ inttoip (a * 16777216 + b * 65536 + c * 256 + d)
          = some (quadStr a b c d))
    ∧ ∃ s, inttoip n = some s ∧ iptoint s = some n := by
  refine ⟨⟨iptoint_quadStr a b c d ha hb hc hd,
    inttoip_bytes a b c d ha hb hc hd⟩, ?_⟩
  refine ⟨quadStr (n / 16777216) (n / 65536 % 256) (n / 256 % 256) (n % 256),
    ?_, ?_⟩
  · unfold inttoip
    rw [if_pos (by omega : n < 4294967296)]
  · rw [iptoint_quadStr _ _ _ _ (by omega) (by omega) (by omega) (by omega)]
    congr 1
    omega

theorem C8_witness :
    (iptoint (quadStr 66 96 160 133)
        = some (66 * 16777216 + 96 * 65536 + 160 * 256 + 133)
      ∧ inttoip (66 * 16777216 + 96 * 65536 + 160 * 256 + 133)
          = some (quadStr 66 96 160 133))
    ∧ ∃ s, inttoip 1113628805 = some s ∧ iptoint s = some 1113628805 :=
  C8_address_integer_roundtrip 66 96 160 133 (by norm_num) (by norm_num)
    (by norm_num) (by norm_num) 1113628805 (by norm_num)

/-- C5 as stated is false: `address_to_integer("66.96.160.133")` is
`1113628805` (`0x4260A085`), not `1115866757`. -/
theorem C5_counterexample :
    iptoint ['6', '6', '.', '9', '6', '.', '1', '6', '0', '.', '1', '3', '3']
        = some 1113628805
    ∧ iptoint ['6', '6', '.', '9', '6', '.', '1', '6', '0', '.', '1', '3', '3']
        ≠ some 1115866757 := by
  constructor
  · decide
  · decide

/-- C5 amended: `address_to_integer("66.96.160.133") = 1113628805`, and
`decode_exactly (encode 1113628805 5)` has the 5-character margin
`4294967295 / 65536` (≈ ±65536) and a value within it of `1113628805`. -/
theorem C5_concrete_scenario :
    iptoint ['6', '6', '.', '9', '6', '.', '1', '6', '0', '.', '1', '3', '3']
        = some 1113628805
    ∧ ∃ value : ℚ,
        decode_exactly (encode ((1113628805 : ℕ) : ℚ) 5)
          = some (value, 4294967295 / 65536)
        ∧ |value - ((1113628805 : ℕ) : ℚ)| ≤ 4294967295 / 65536 := by
  refine ⟨by decide, ?_⟩
  rw [encode_eq_encodeLoop _ _ (by norm_num)]
  have hm : (4294967295 : ℚ) / 65536 = 4294967295 / 2 / 8 ^ (5 : ℤ).toNat := by
    show (4294967295 : ℚ) / 65536 = 4294967295 / 2 / 8 ^ (5 : ℕ)
    norm_num
  rw [hm]
  exact ⟨_, decode_exactly_encodeLoop _ _,
    midpoint_bound _ (by positivity) (by norm_num) _⟩

lemma parseParts_none_of_mem (ps : List (List Char)) (p : List Char)
    (hp : p ∈ ps) (h : parsePart p = none) : parseParts ps = none := by
  induction ps with
  | nil => cases hp
  | cons q qs ih =>
    rcases List.mem_cons.mp hp with rfl | hmem
    · simp [parseParts, h]
    · cases hq : parsePart q <;> simp [parseParts, hq, ih hmem]

lemma parseParts_length (ps : List (List Char)) (vs : List Nat)
    (h : parseParts ps = some vs) : vs.length = ps.length := by
  induction ps generalizing vs with
  | nil =>
    cases h
    rfl
  | cons q qs ih =>
    cases hq : parsePart q with
    | none => simp [parseParts, hq] at h
    | some v =>
      cases hqs : parseParts qs with
      | none => simp [parseParts, hq, hqs] at h
      | some ws =>
        simp only [parseParts, hq, hqs] at h
        cases h
        simp [ih ws hqs]

lemma iptoint_none_of_parseParts_none (s : List Char)
    (h : parseParts (splitOnDot s) = none) : iptoint s = none := by
  unfold iptoint
  rw [h]

lemma iptoint_none_of_five_parts (s : List Char) (v1 v2 v3 v4 v5 : Nat)
    (rest : List Nat)
    (h : parseParts (splitOnDot s)
      = some (v1 :: v2 :: v3 :: v4 :: v5 :: rest)) : iptoint s = none := by
  unfold iptoint
  rw [h]

/-- C7 as stated is false: `"1.2.3"` has the wrong octet count for a dotted
quad, yet `address_to_integer` accepts it (`inet_aton` classful shorthand) and
returns `1 * 2^24 + 2 * 2^16 + 3 = 16908291` instead of failing. -/
theorem C7_counterexample :
    (splitOnDot ['1', '.', '2', '.', '3']).length = 3
    ∧ iptoint ['1', '.', '2', '.', '3'] = some 16908291 := by
  constructor
  · decide
  · decide

/-- C7 amended: `address_to_integer` does fail on a non-numeric part, on more
than four parts, and on a four-part string with an octet above 255 — but
one-to-three-part numeric strings are accepted (`inet_aton` shorthand) rather
than rejected. -/
theorem C7_malformed_rejected (s : List Char) :
    ((∃ p ∈ splitOnDot s, parsePart p = none) → iptoint s = none)
    ∧ (4 < (splitOnDot s).length → iptoint s = none)
    ∧ (∀ a b c d va vb vc vd, splitOnDot s = [a, b, c, d] →
        parsePart a = some va → parsePart b = some vb →
        parsePart c = some vc → parsePart d = some vd →
        ¬(va ≤ 255 ∧ vb ≤ 255 ∧ vc ≤ 255 ∧ vd ≤ 255) →
        iptoint s = none) := by
  refine ⟨?_, ?_, ?_⟩
  · rintro ⟨p, hp, hnone⟩
    exact iptoint_none_of_parseParts_none s
      (parseParts_none_of_mem _ p hp hnone)
  · intro h4
    cases hps : parseParts (splitOnDot s) with
    | none => exact iptoint_none_of_parseParts_none s hps
    | some vs =>
      have hlen := parseParts_length _ _ hps
      rcases vs with _ | ⟨v1, _ | ⟨v2, _ | ⟨v3, _ | ⟨v4, _ | ⟨v5, rest⟩⟩⟩⟩⟩ <;>
        simp only [List.length_nil, List.length_cons] at hlen <;>
        first
          | omega
          | exact iptoint_none_of_five_parts s v1 v2 v3 v4 v5 rest hps
  · intro a b c d va vb vc vd hsplit hva hvb hvc hvd hbig
    unfold iptoint
    rw [hsplit]
    simp only [parseParts, hva, hvb, hvc, hvd]
    exact if_neg hbig

theorem C7_witness :
    iptoint ['2', '5', '6', '.', '1', '.', '1', '.', '1'] = none :=
  (C7_malformed_rejected ['2', '5', '6', '.', '1', '.', '1', '.', '1']).2.2
    ['2', '5', '6'] ['1'] ['1'] ['1'] 256 1 1 1 (by decide) (by decide)
    (by decide) (by decide) (by decide) (by decide)

end Ipbin
